import Mathlib

/-!
Verification of the reactive core of the vue2-source-code-blog repository
(a Vue 2.5.x runtime with annotated source).

Shallow embedding conventions:
- JavaScript objects are heap pointers (`Nat`) into an explicit `Heap`;
  `JSv` is the value domain (numbers, NaN, undefined, object pointers).
- `Dep.subs` lists are modelled as `Nat → List Nat` maps from dep id to
  the list of subscribed watcher ids (`push` appends, `remove` erases the
  first occurrence, as in `shared/util`'s `remove`).
- Side effects that the claims observe (update calls, warnings, shape-cell
  notifications) are returned as explicit event lists.
- The scheduler flush loop is modelled with explicit fuel; the claims are
  proved for every fuel value or at fuel large enough for the scenario.
-/

namespace VueCore

/-- Pointwise update of a function map, used for `has`, `circular`, heaps
and subscriber tables. -/
def upd {β : Type} (f : Nat → β) (k : Nat) (v : β) : Nat → β :=
  fun x => if x = k then v else f x

/-! ### Dep.target stack (src/core/observer/dep.js, pushTarget / popTarget)

`Dep.target` is an optional watcher id; `targetStack` holds the saved
previous targets.  `pushTarget(_target)` saves the current target on the
stack only when it is non-null, then installs the argument; `popTarget()`
always pops (popping an empty JS array yields `undefined`, i.e. `none`).
The stack is modelled with the head as the top. -/

structure TargetSt where
  target : Option Nat
  stack : List Nat
  deriving DecidableEq, Repr

/-- Embedding of `pushTarget` from src/core/observer/dep.js lines 354-359:
the current target is saved only if non-null. -/
def pushTarget (t : Option Nat) (s : TargetSt) : TargetSt :=
  match s.target with
  | some prev => { target := t, stack := prev :: s.stack }
  | none => { target := t, stack := s.stack }

/-- Embedding of `popTarget` from src/core/observer/dep.js lines 361-364:
`Dep.target = targetStack.pop()`; popping an empty array gives undefined. -/
def popTarget (s : TargetSt) : TargetSt :=
  match s.stack with
  | prev :: rest => { target := some prev, stack := rest }
  | [] => { target := none, stack := [] }

/-- Embedding of the target-stack discipline of `Watcher.get`
(src/unnamed/part_007 lines 115-148): `pushTarget(this)` on entry and, in
the `finally` clause, `popTarget()` on exit.  The `threw` flag records
whether the getter threw; because the pop sits in `finally`, the stack
transition is identical on both exit paths (the `catch` only reports or
rethrows the error). -/
def watcherGetTargets (w : Nat) (threw : Bool) (s : TargetSt) : TargetSt :=
  let entered := pushTarget (some w) s
  match threw with
  | true => popTarget entered
  | false => popTarget entered

/-! ### Render fallback (src/core/instance/render.js, Vue.prototype.render)

The render call either returns a VNode, returns an array (multiple roots),
returns some other non-VNode value, or throws.  `VNodeV` is the value the
surrounding code stores into `vm.vnode`: a real rendered node or the empty
placeholder produced by `createEmptyVNode`. -/

inductive VNodeV where
  | real (n : Nat)
  | emptyV
  deriving DecidableEq, Repr

inductive RenderResult where
  | vnode (n : Nat)
  | multipleRoots
  | nonVNode
  | throws
  deriving DecidableEq, Repr

/-- Embedding of the result handling of `Vue.prototype.render`
(src/core/instance/render.js lines 99-131), for an instance without a
`renderError` option, in a dev build.  Returns the vnode used as the
render result together with a flag recording whether a diagnostic
(`handleError` or the multiple-roots `warn`) was reported.
- getter throws: `handleError` reports it, then `vnode = vm.vnode`
  (previous tree, or the empty placeholder when there is none);
- array return: dev-only `warn` about multiple roots, then
  `vnode = createEmptyVNode()`;
- other non-VNode return: no diagnostic, `vnode = createEmptyVNode()`. -/
def renderStep (prevVnode : Option VNodeV) (res : RenderResult) : VNodeV × Bool :=
  match res with
  | .vnode n => (.real n, false)
  | .multipleRoots => (.emptyV, true)
  | .nonVNode => (.emptyV, false)
  | .throws =>
    match prevVnode with
    | some v => (v, true)
    | none => (.emptyV, true)

/-! ### Lazy (computed) watcher flags
(src/unnamed/part_007, Watcher constructor / update / evaluate, and
src/core/instance/state.js createComputedGetter) -/

structure LazyW where
  lazy : Bool
  sync : Bool
  dirty : Bool
  value : Int
  getterCalls : Nat
  deriving DecidableEq, Repr

/-- Embedding of the Watcher constructor flag logic (src/unnamed/part_007
lines 64-110) for a computed watcher: `dirty = lazy`, and the initial
value is not computed when lazy (`value = lazy ? undefined : get()`).
The getter is modelled as the pure value `g` plus a call counter. -/
def mkWatcherW (g : Int) (lazyFlag syncFlag : Bool) : LazyW :=
  if lazyFlag then
    { lazy := true, sync := syncFlag, dirty := true, value := 0, getterCalls := 0 }
  else
    { lazy := false, sync := syncFlag, dirty := false, value := g, getterCalls := 1 }

/-- Dispatch outcome of `Watcher.update`: a lazy watcher only flips its
dirty flag, a sync watcher runs inline, any other watcher is handed to
the scheduler queue. -/
inductive UpdEffect where
  | nothing
  | runNow
  | enqueue
  deriving DecidableEq, Repr

/-- Embedding of `Watcher.update` (src/unnamed/part_007 lines 207-225). -/
def watcherUpdate (w : LazyW) : LazyW × UpdEffect :=
  if w.lazy then ({ w with dirty := true }, .nothing)
  else if w.sync then (w, .runNow)
  else (w, .enqueue)

/-- Embedding of `Watcher.evaluate` (src/unnamed/part_007 lines 266-270):
run the getter via `get()` and clear the dirty flag. -/
def watcherEvaluate (g : Int) (w : LazyW) : LazyW :=
  { w with value := g, getterCalls := w.getterCalls + 1, dirty := false }

/-- Embedding of the computed getter created by `createComputedGetter`
(src/core/instance/state.js lines 263-285): evaluate exactly when dirty,
then (when a target is active) re-depend, then return `watcher.value`.
The `dependCalled` flag records whether `watcher.depend()` ran. -/
def computedRead (g : Int) (hasTarget : Bool) (w : LazyW) : Int × LazyW × Bool :=
  let w1 := if w.dirty then watcherEvaluate g w else w
  (w1.value, w1, hasTarget)

/-! ### JavaScript values and the observed heap
(src/core/observer/index.js: Observer, observe, defineReactive, set)

A JS value is a primitive (number, NaN, undefined) or a pointer into the
heap of objects.  Each heap record carries the classification bits the
source inspects (`isPlainObject`, `Array.isArray`, `Object.isExtensible`,
`value.isVue`, `value instanceof VNode`), the hidden marker slot
(`hasOb`, the id of the attached Observer if any) and the own fields.
Observers live in a side table: `obVmCount` maps observer id to its
`vmCount`, and `nextOb` numbers freshly created Observers so "no new
Observer is created" is a statement about `nextOb`. -/

inductive JSv where
  | num (q : Int)
  | nan
  | undef
  | objv (p : Nat)
  deriving DecidableEq, Repr

/-- Strict equality of JS values: `NaN === NaN` is false, objects compare
by identity (heap pointer). -/
def strictEq : JSv → JSv → Bool
  | .num a, .num b => a == b
  | .undef, .undef => true
  | .objv a, .objv b => a == b
  | _, _ => false

/-- JS `v !== v`: true exactly for NaN. -/
def isNaNv : JSv → Bool
  | .nan => true
  | _ => false

structure ObjRec where
  hasOb : Option Nat
  plain : Bool
  isArr : Bool
  ext : Bool
  isVue : Bool
  isVNode : Bool
  vals : String → Option JSv

structure Heap where
  objs : Nat → ObjRec
  obVmCount : Nat → Nat
  nextOb : Nat

/-- Embedding of `observe` (src/core/observer/index.js lines 115-138)
together with the Observer-attachment part of the `Observer` constructor
(lines 43-61, `def(value, marker, this)`).  `shouldObs` is the module
flag `shouldObserve`; `isServerRendering()` is false in the web runtime.
Returns the updated heap and the observer id (`undefined` is `none`).
The recursive conversion of child values performed by `walk` /
`observeArray` installs per-key accessors; the claims below only inspect
the marker, the observer table and the returned observer, so that
recursion is not modelled here (per-key behaviour is modelled by
`reactiveSetter` and `vueSet`). -/
def observeM (shouldObs : Bool) (h : Heap) (v : JSv) (asRoot : Bool) : Heap × Option Nat :=
  match v with
  | .objv p =>
    let r := h.objs p
    if r.isVNode then (h, none)
    else
      match r.hasOb with
      | some ob =>
        if asRoot then
          ({ h with obVmCount := upd h.obVmCount ob (h.obVmCount ob + 1) }, some ob)
        else (h, some ob)
      | none =>
        if shouldObs && (r.isArr || r.plain) && r.ext && !r.isVue then
          let ob := h.nextOb
          ({ objs := upd h.objs p { r with hasOb := some ob },
             obVmCount := upd h.obVmCount ob (if asRoot then 1 else 0),
             nextOb := h.nextOb + 1 }, some ob)
        else (h, none)
  | _ => (h, none)

/-! ### Reactive setter and Dep.notify
(src/core/observer/index.js lines 188-207 and 336-344)

The per-key closure state of `defineReactive` is `CellState`: the closure
variable `val` and the `childOb` observer of the current value.  The
notification is returned as an event list: `Dep.notify` copies `subs` and
calls `update()` once on each entry; the setter itself never calls
`run()`, so a `runCall` event can never appear in its output. -/

structure CellState where
  val : JSv
  childOb : Option Nat
  deriving DecidableEq, Repr

inductive NotifyEv where
  | updateCall (wid : Nat)
  | runCall (wid : Nat)
  deriving DecidableEq, Repr

/-- Embedding of `Dep.notify` (src/core/observer/index.js lines 336-344):
one `update()` call per current subscriber, in list order. -/
def depNotify (subs : List Nat) : List NotifyEv :=
  subs.map NotifyEv.updateCall

/-- Embedding of `reactiveSetter` (src/core/observer/index.js lines
188-207) for a plain data property (no pre-existing getter/setter, not
shallow, production `customSetter` elided): skip when the new value is
strictly equal to the old or both are NaN; otherwise store the new value,
re-observe it, and notify the dep. -/
def reactiveSetter (shouldObs : Bool) (h : Heap) (c : CellState) (subs : List Nat)
    (newVal : JSv) : Heap × CellState × List NotifyEv :=
  if strictEq newVal c.val || (isNaNv newVal && isNaNv c.val) then
    (h, c, [])
  else
    let ob := observeM shouldObs h newVal false
    (ob.1, { val := newVal, childOb := ob.2 }, depNotify subs)

/-! ### Vue.set (src/core/observer/index.js lines 216-252) -/

inductive SetEv where
  | warnGuard
  | shapeNotify (ob : Nat)
  | defineReact (key : String)
  deriving DecidableEq, Repr

/-- JS `isValidArrayIndex(key)`: a non-negative integral key. -/
def validIdx (k : String) : Bool :=
  (k.toNat?).isSome

/-- Write one own field of a heap object (plain JS assignment). -/
def setVal (h : Heap) (p : Nat) (key : String) (v : JSv) : Heap :=
  let r := h.objs p
  { h with objs := upd h.objs p { r with vals := fun k => if k = key then some v else r.vals k } }

/-- Embedding of `set` (src/core/observer/index.js lines 216-252).
Returns the new heap, the returned value, and the emitted events.
- array with a valid index: delegated to the intercepted `splice`, which
  stores the element and notifies the array observer dep once
  (src/core/observer/array.js behaviour);
- key already present (`key in target`; the data keys are own keys, none
  of them live on `Object.prototype`): plain assignment, which flows
  through the existing reactive setter, so no event is emitted here;
- target is a Vue instance or a root data object (`vmCount` positive):
  dev warning only, nothing else happens;
- unobserved plain object: plain assignment, no notification;
- otherwise: `defineReactive(ob.value, key, val)` then `ob.dep.notify()`. -/
def vueSet (h : Heap) (p : Nat) (key : String) (v : JSv) : Heap × JSv × List SetEv :=
  let r := h.objs p
  if r.isArr && validIdx key then
    (setVal h p key v, v,
      match r.hasOb with
      | some ob => [.shapeNotify ob]
      | none => [])
  else if (r.vals key).isSome then
    (setVal h p key v, v, [])
  else if r.isVue || (match r.hasOb with
      | some ob => decide (0 < h.obVmCount ob)
      | none => false) then
    (h, v, [.warnGuard])
  else
    match r.hasOb with
    | none => (setVal h p key v, v, [])
    | some ob => (setVal h p key v, v, [.defineReact key, .shapeNotify ob])

/-! ### Watcher dependency tracking
(src/unnamed/part_007: addDep, cleanupDeps, get; src/core/observer/dep.js:
addSub, removeSub, depend)

A Dep is identified by its id; `Subs` maps each dep id to its `subs`
array of watcher ids.  `WTrack` carries the four tracking fields of a
Watcher.  In the source `depIds` / `newDepIds` are Sets and `deps` /
`newDeps` arrays of Dep objects pushed in lockstep; both are modelled as
id lists, with set membership as list membership. -/

abbrev Subs := Nat → List Nat

structure WTrack where
  id : Nat
  deps : List Nat
  newDeps : List Nat
  depIds : List Nat
  newDepIds : List Nat

/-- Embedding of `Dep.addSub` (src/core/observer/dep.js lines 321-323):
`this.subs.push(sub)`. -/
def addSub (subs : Subs) (d wid : Nat) : Subs :=
  upd subs d (subs d ++ [wid])

/-- Embedding of `Dep.removeSub` (src/core/observer/dep.js lines 325-327):
`remove(this.subs, sub)` splices out the first occurrence. -/
def removeSub (subs : Subs) (d wid : Nat) : Subs :=
  upd subs d ((subs d).erase wid)

/-- Embedding of `Watcher.addDep` (src/unnamed/part_007 lines 154-172),
reached from `Dep.depend` while this watcher is the active target: record
the dep in the new-run sets unless already recorded this run, and
subscribe (`dep.addSub(this)`) only when not subscribed on the previous
run either. -/
def addDep (p : WTrack × Subs) (d : Nat) : WTrack × Subs :=
  let w := p.1
  if d ∈ w.newDepIds then p
  else
    let w1 : WTrack :=
      { w with newDepIds := w.newDepIds ++ [d], newDeps := w.newDeps ++ [d] }
    if d ∈ w.depIds then (w1, p.2)
    else (w1, addSub p.2 d w.id)

/-- One iteration of the cleanup loop of `Watcher.cleanupDeps`: if the
new run did not collect the dep, `dep.removeSub(this)`. -/
def staleStep (newIds : List Nat) (wid : Nat) (s : Subs) (d : Nat) : Subs :=
  if d ∈ newIds then s else removeSub s d wid

/-- The cleanup loop of `Watcher.cleanupDeps` over the previous `deps`
(the source walks the array downward from the end; the removals on
distinct deps commute, so a left fold is extensionally the same
update). -/
def removeStale (newIds : List Nat) (wid : Nat) (subs : Subs) (deps : List Nat) : Subs :=
  deps.foldl (staleStep newIds wid) subs

/-- Embedding of `Watcher.cleanupDeps` (src/unnamed/part_007 lines
178-200): unsubscribe from every previous dep that the finished run did
not read, then swap the new sets into place and clear them. -/
def cleanupDeps (p : WTrack × Subs) : WTrack × Subs :=
  let w := p.1
  ({ w with depIds := w.newDepIds, newDepIds := [],
            deps := w.newDeps, newDeps := [] },
    removeStale w.newDepIds w.id p.2 w.deps)

/-- Embedding of the dependency-retracking effect of `Watcher.get`
(src/unnamed/part_007 lines 115-148): the getter body performs a sequence
of tracked reads (each hitting `dep.depend()` and so `addDep`), and the
`finally` clause runs `cleanupDeps()` on every exit path.  `reads` is the
sequence of dep ids read during this run, in order, duplicates included.
The `pushTarget` / `popTarget` bookkeeping is modelled separately by
`watcherGetTargets`. -/
def watcherRunDeps (w : WTrack) (subs : Subs) (reads : List Nat) : WTrack × Subs :=
  cleanupDeps (reads.foldl addDep (w, subs))

/-! ### Scheduler (src/core/observer/scheduler.js)

Watchers are identified by their creation id (the sort key).  The idle
half (`queueWatcher` while not flushing, plus the `waiting` / `nextTick`
request) is `Sched`; the running flush is `FlushSt`, a zipper of the
queue around `index`: `ran` is `queue[0..index]` in execution order and
`pending` is `queue[index+1..]`.  The splice performed by `queueWatcher`
during a flush only ever touches positions after `index`, so it is an
operation on `pending`. -/

def MAX_UPDATE_COUNT : Nat := 100

structure Sched where
  queue : List Nat
  has : Nat → Bool
  waiting : Bool
  flushRequests : Nat

/-- Embedding of `queueWatcher` (src/core/observer/scheduler.js lines
140-169) in the not-flushing state: dedupe on `has`, push to the queue,
and request one `nextTick(flushSchedulerQueue)` guarded by `waiting`.
`flushRequests` counts the `nextTick` calls actually made. -/
def queueWatcherIdle (s : Sched) (wid : Nat) : Sched :=
  if s.has wid then s
  else
    { queue := s.queue ++ [wid],
      has := upd s.has wid true,
      waiting := true,
      flushRequests := if s.waiting then s.flushRequests else s.flushRequests + 1 }

/-- The in-flush splice of `queueWatcher` (src/core/observer/scheduler.js
lines 151-158): scan from the tail of the queue down while `i > index`
and `queue[i].id > watcher.id`, and insert at `i + 1`.  On the `pending`
part of the queue this places the id right before the maximal tail run of
strictly larger ids. -/
def spliceIn (l : List Nat) (id : Nat) : List Nat :=
  match l with
  | [] => [id]
  | x :: xs =>
    if (x :: xs).all (fun y => id < y) then id :: x :: xs
    else x :: spliceIn xs id

/-- Enqueue during a flush: the `has` dedupe check followed by the
splice. -/
def enqFlushing (has : Nat → Bool) (pending : List Nat) (wid : Nat) :
    (Nat → Bool) × List Nat :=
  if has wid then (has, pending)
  else (upd has wid true, spliceIn pending wid)

/-- Apply the enqueues performed while one watcher runs. -/
def runEnqueues (has : Nat → Bool) (pending : List Nat) (es : List Nat) :
    (Nat → Bool) × List Nat :=
  es.foldl (fun st e => enqFlushing st.1 st.2 e) (has, pending)

structure FlushSt where
  ran : List Nat
  pending : List Nat
  has : Nat → Bool
  circ : Nat → Nat
  warned : Bool
  broke : Bool

/-- Embedding of the loop of `flushSchedulerQueue`
(src/core/observer/scheduler.js lines 57-84), dev build (the circular
guard is compiled in).  Each iteration takes the watcher at `index`,
clears its `has` marker, runs it (the tracked writes it performs enqueue
the ids `effects id`, spliced after `index`), then checks whether it was
re-enqueued during its own run; if so its `circular` counter grows, and
past `MAX_UPDATE_COUNT` the loop warns and `break`s, abandoning the rest
of the queue.  `fuel` bounds the number of iterations; the real loop can
run unboundedly when watchers keep re-enqueueing. -/
def flushLoop (effects : Nat → List Nat) : Nat → FlushSt → FlushSt
  | 0, s => s
  | fuel + 1, s =>
    match s.pending with
    | [] => s
    | cur :: rest =>
      let has1 := upd s.has cur false
      let st2 := runEnqueues has1 rest (effects cur)
      if st2.1 cur then
        let c := s.circ cur + 1
        if MAX_UPDATE_COUNT < c then
          { ran := s.ran ++ [cur], pending := st2.2, has := st2.1,
            circ := upd s.circ cur c, warned := true, broke := true }
        else
          flushLoop effects fuel
            { ran := s.ran ++ [cur], pending := st2.2, has := st2.1,
              circ := upd s.circ cur c, warned := s.warned, broke := s.broke }
      else
        flushLoop effects fuel
          { ran := s.ran ++ [cur], pending := st2.2, has := st2.1,
            circ := s.circ, warned := s.warned, broke := s.broke }

/-- Sorted insertion, the building block of `sortById`. -/
def insSorted (x : Nat) : List Nat → List Nat
  | [] => [x]
  | y :: ys => if x ≤ y then x :: y :: ys else y :: insSorted x ys

/-- Embedding of `queue.sort((a, b) => a.id - b.id)` at the top of
`flushSchedulerQueue` (line 53): an insertion sort; watcher ids in the
queue are distinct (the `has` dedupe), so any comparison sort computes
the same list. -/
def sortById (l : List Nat) : List Nat :=
  l.foldr insSorted []

/-- Embedding of `flushSchedulerQueue` (src/core/observer/scheduler.js
lines 40-102) up to the post-loop hooks: set `flushing`, sort the queue,
run the loop.  `circular` starts empty for each flush (it is reset by
`resetSchedulerState`). -/
def flushSchedulerQueue (effects : Nat → List Nat) (fuel : Nat) (q : List Nat)
    (has : Nat → Bool) : FlushSt :=
  flushLoop effects fuel
    { ran := [], pending := sortById q, has := has,
      circ := fun _ => 0, warned := false, broke := false }

/-- Embedding of `resetSchedulerState` (src/core/observer/scheduler.js
lines 27-34): queue, markers and flags are cleared before the post-flush
hooks run. -/
def resetSchedulerState : Sched :=
  { queue := [], has := fun _ => false, waiting := false, flushRequests := 0 }

/-! ### Tracked property writes (src/core/observer/index.js reactiveSetter
composed with Dep.notify, Watcher.update and queueWatcher)

For the coalescing claim the subscribers are non-lazy non-sync watchers,
so each `update()` lands in `queueWatcher`.  `PropCell` is one tracked
property: its current value and its dep subscribers (given with their
flags).  Values are `Int` here; the NaN caveat is covered by
`reactiveSetter` above. -/

structure WFlags where
  id : Nat
  lazy : Bool
  sync : Bool
  deriving DecidableEq, Repr

structure PropCell where
  val : Int
  subs : List WFlags

/-- One subscriber update during `Dep.notify`, restricted to its
scheduler effect: lazy and sync watchers do not touch the queue
(`update` sets `dirty` or calls `run()` inline), others are enqueued. -/
def notifyOne (s : Sched) (w : WFlags) : Sched :=
  if w.lazy then s
  else if w.sync then s
  else queueWatcherIdle s w.id

/-- Embedding of one tracked write: `reactiveSetter` skips when the value
is unchanged, otherwise stores it and `dep.notify()` walks the
subscribers. -/
def writeProp (p : PropCell × Sched) (v : Int) : PropCell × Sched :=
  if v == p.1.val then p
  else ({ p.1 with val := v }, p.1.subs.foldl notifyOne p.2)

/-- A synchronous burst of writes to the same tracked property within one
tick (no flush runs in between). -/
def writeBurst (p : PropCell × Sched) (vs : List Int) : PropCell × Sched :=
  vs.foldl writeProp p

/-- A run-effect oracle describing a watcher that re-enqueues itself on
every run (an infinite update loop): watcher 1 writes a dependency of its
own getter, so each of its runs calls `queueWatcher(1)` again. -/
def cyclicEff : Nat → List Nat :=
  fun w => if w = 1 then [1] else []

/-- Scheduler invariant maintained by `queueWatcher` outside a flush:
the queue holds exactly the watchers whose `has` marker is set (hence no
duplicates), every queued id comes from the subscriber set `ids`, and one
`nextTick(flushSchedulerQueue)` request is pending exactly when `waiting`
is set. -/
def SchedInv (ids : List Nat) (s : Sched) : Prop :=
  (∀ x, s.queue.count x = if s.has x then 1 else 0) ∧
  (∀ x ∈ s.queue, x ∈ ids) ∧
  s.flushRequests = (if s.waiting then 1 else 0)

/-! ## Helper lemmas -/

@[simp] theorem upd_same {β : Type} (f : Nat → β) (k : Nat) (v : β) : upd f k v k = v := by
  simp [upd]

@[simp] theorem upd_ne {β : Type} (f : Nat → β) (k x : Nat) (v : β) (h : x ≠ k) :
    upd f k v x = f x := by
  simp [upd, h]

theorem mem_spliceIn (l : List Nat) (e b : Nat) :
    b ∈ spliceIn l e ↔ b = e ∨ b ∈ l := by
  induction l with
  | nil => simp [spliceIn]
  | cons x xs ih =>
    by_cases h : (x :: xs).all (fun y => e < y)
    · simp [spliceIn, h]
    · simp only [spliceIn, if_neg h, List.mem_cons, ih]
      tauto

theorem pairwise_spliceIn (l : List Nat) (e : Nat)
    (hs : l.Pairwise (· ≤ ·)) : (spliceIn l e).Pairwise (· ≤ ·) := by
  induction l with
  | nil => simp [spliceIn]
  | cons x xs ih =>
    rcases List.pairwise_cons.mp hs with ⟨hx, hxs⟩
    by_cases h : (x :: xs).all (fun y => e < y)
    · rw [spliceIn, if_pos h]
      refine List.pairwise_cons.mpr ⟨?_, hs⟩
      intro y hy
      exact Nat.le_of_lt (by simpa using (List.all_eq_true.mp h) y hy)
    · rw [spliceIn, if_neg h]
      refine List.pairwise_cons.mpr ⟨?_, ih hxs⟩
      intro y hy
      rcases (mem_spliceIn xs e y).mp hy with rfl | hy
      · -- x is at most e: the downward scan found an element not above e
        by_cases hex : x ≤ y
        · exact hex
        · have hgt : y < x := Nat.lt_of_not_le hex
          have h3 : ∃ z ∈ xs, ¬ y < z := by
            by_contra hall
            push_neg at hall
            apply h
            rw [List.all_eq_true]
            intro z hz
            rcases List.mem_cons.mp hz with rfl | hz
            · exact decide_eq_true hgt
            · exact decide_eq_true (hall z hz)
          rcases h3 with ⟨z, hz, hze⟩
          exact Nat.le_trans (hx z hz) (Nat.le_of_not_lt hze)
      · exact hx y hy

theorem runEnqueues_bounds (es : List Nat) :
    ∀ (has : Nat → Bool) (pending : List Nat) (c : Nat),
      pending.Pairwise (· ≤ ·) →
      (∀ b ∈ pending, c ≤ b) →
      (∀ e ∈ es, c ≤ e) →
      (runEnqueues has pending es).2.Pairwise (· ≤ ·) ∧
      (∀ b ∈ (runEnqueues has pending es).2, c ≤ b) := by
  induction es with
  | nil =>
    intro has pending c hs hb _
    exact ⟨hs, hb⟩
  | cons e rest ih =>
    intro has pending c hs hb he
    have hstep : runEnqueues has pending (e :: rest) =
        runEnqueues (enqFlushing has pending e).1 (enqFlushing has pending e).2 rest := rfl
    rw [hstep]
    by_cases hhas : has e
    · have h1 : enqFlushing has pending e = (has, pending) := by
        simp [enqFlushing, hhas]
      rw [h1]
      exact ih has pending c hs hb (fun x hx => he x (List.mem_cons_of_mem e hx))
    · have h1 : enqFlushing has pending e = (upd has e true, spliceIn pending e) := by
        simp [enqFlushing, hhas]
      rw [h1]
      refine ih _ _ c (pairwise_spliceIn pending e hs) ?_
        (fun x hx => he x (List.mem_cons_of_mem e hx))
      intro b hbm
      rcases (mem_spliceIn pending e b).mp hbm with rfl | hbm
      · exact he b (by simp)
      · exact hb b hbm

theorem flushLoop_sorted (effects : Nat → List Nat)
    (Hm : ∀ w e, e ∈ effects w → w ≤ e) :
    ∀ (fuel : Nat) (s : FlushSt),
      s.ran.Pairwise (· ≤ ·) →
      s.pending.Pairwise (· ≤ ·) →
      (∀ a ∈ s.ran, ∀ b ∈ s.pending, a ≤ b) →
      (flushLoop effects fuel s).ran.Pairwise (· ≤ ·) := by
  intro fuel
  induction fuel with
  | zero => intro s hran _ _; exact hran
  | succ fuel ih =>
    intro s hran hpend hcross
    obtain ⟨ran, pending, has, circ, warned, broke⟩ := s
    match pending with
    | [] => exact hran
    | cur :: rest =>
      simp only at hran hpend hcross
      rcases List.pairwise_cons.mp hpend with ⟨hcur, hrest⟩
      have hc : ∀ a ∈ ran, a ≤ cur := fun a ha => hcross a ha cur (by simp)
      obtain ⟨hq1, hq2⟩ := runEnqueues_bounds (effects cur) (upd has cur false) rest cur
        hrest hcur (fun e hee => Hm cur e hee)
      have hran2 : (ran ++ [cur]).Pairwise (fun a b => a ≤ b) := by
        rw [List.pairwise_append]
        exact ⟨hran, List.pairwise_singleton _ _, by
          intro a ha b hb
          rcases List.mem_singleton.mp hb with rfl
          exact hc a ha⟩
      have hcross2 : ∀ a ∈ ran ++ [cur],
          ∀ b ∈ (runEnqueues (upd has cur false) rest (effects cur)).2, a ≤ b := by
        intro a ha b hb
        rcases List.mem_append.mp ha with ha | ha
        · exact Nat.le_trans (hc a ha) (hq2 b hb)
        · rcases List.mem_singleton.mp ha with rfl
          exact hq2 b hb
      show (flushLoop effects (fuel + 1)
        ⟨ran, cur :: rest, has, circ, warned, broke⟩).ran.Pairwise (· ≤ ·)
      rw [flushLoop]
      simp only
      by_cases hre : (runEnqueues (upd has cur false) rest (effects cur)).1 cur
      · rw [if_pos hre]
        by_cases hcap : MAX_UPDATE_COUNT < circ cur + 1
        · rw [if_pos hcap]
          exact hran2
        · rw [if_neg hcap]
          exact ih _ hran2 hq1 hcross2
      · rw [if_neg hre]
        exact ih _ hran2 hq1 hcross2

theorem mem_insSorted (x b : Nat) (l : List Nat) :
    b ∈ insSorted x l ↔ b = x ∨ b ∈ l := by
  induction l with
  | nil => simp [insSorted]
  | cons y ys ih =>
    by_cases h : x ≤ y
    · simp [insSorted, h]
    · simp only [insSorted, if_neg h, List.mem_cons, ih]
      tauto

theorem pairwise_insSorted (x : Nat) (l : List Nat)
    (hs : l.Pairwise (· ≤ ·)) : (insSorted x l).Pairwise (· ≤ ·) := by
  induction l with
  | nil => simp [insSorted]
  | cons y ys ih =>
    rcases List.pairwise_cons.mp hs with ⟨hy, hys⟩
    by_cases h : x ≤ y
    · rw [insSorted, if_pos h]
      refine List.pairwise_cons.mpr ⟨?_, hs⟩
      intro b hb
      rcases List.mem_cons.mp hb with rfl | hb
      · exact h
      · exact Nat.le_trans h (hy b hb)
    · rw [insSorted, if_neg h]
      refine List.pairwise_cons.mpr ⟨?_, ih hys⟩
      intro b hb
      rcases (mem_insSorted x b ys).mp hb with rfl | hb
      · exact Nat.le_of_not_le h
      · exact hy b hb

theorem sortById_sorted (l : List Nat) : (sortById l).Pairwise (· ≤ ·) := by
  induction l with
  | nil => simp [sortById]
  | cons a rest ih => exact pairwise_insSorted a (sortById rest) ih

theorem count_insSorted (x b : Nat) (l : List Nat) :
    (insSorted x l).count b = (x :: l).count b := by
  induction l with
  | nil => rfl
  | cons y ys ih =>
    by_cases h : x ≤ y
    · rw [insSorted, if_pos h]
    · rw [insSorted, if_neg h]
      simp only [List.count_cons, ih]
      omega

theorem count_sortById (l : List Nat) (b : Nat) :
    (sortById l).count b = l.count b := by
  induction l with
  | nil => rfl
  | cons a rest ih =>
    show (insSorted a (sortById rest)).count b = (a :: rest).count b
    rw [count_insSorted]
    simp only [List.count_cons, ih]

theorem queueWatcherIdle_inv (ids : List Nat) (s : Sched) (wid : Nat)
    (hmem : wid ∈ ids) (h : SchedInv ids s) : SchedInv ids (queueWatcherIdle s wid) := by
  obtain ⟨h1, h2, h3⟩ := h
  by_cases hh : s.has wid
  · simpa [queueWatcherIdle, hh] using ⟨h1, h2, h3⟩
  · refine ⟨?_, ?_, ?_⟩
    · intro x
      by_cases hx : x = wid
      · subst hx
        simp [queueWatcherIdle, hh, List.count_append, h1 x]
      · simp [queueWatcherIdle, hh, List.count_append, h1 x, hx]
    · intro x hx
      simp only [queueWatcherIdle, if_neg hh, List.mem_append,
        List.mem_singleton] at hx
      rcases hx with hx | rfl
      · exact h2 x hx
      · exact hmem
    · by_cases hw : s.waiting <;> simp [queueWatcherIdle, hh, hw, h3]

theorem notifyOne_inv (ids : List Nat) (s : Sched) (w : WFlags)
    (hmem : w.id ∈ ids) (h : SchedInv ids s) : SchedInv ids (notifyOne s w) := by
  by_cases hl : w.lazy
  · simpa [notifyOne, hl] using h
  · by_cases hs : w.sync
    · simpa [notifyOne, hl, hs] using h
    · simpa [notifyOne, hl, hs] using queueWatcherIdle_inv ids s w.id hmem h

theorem notifyFold_inv (subs : List WFlags) :
    ∀ (ids : List Nat) (s : Sched), (∀ w ∈ subs, w.id ∈ ids) → SchedInv ids s →
      SchedInv ids (subs.foldl notifyOne s) := by
  induction subs with
  | nil => intro ids s _ h; exact h
  | cons w rest ih =>
    intro ids s hsub h
    exact ih ids (notifyOne s w) (fun x hx => hsub x (List.mem_cons_of_mem w hx))
      (notifyOne_inv ids s w (hsub w (by simp)) h)

theorem writeBurst_inv (vs : List Int) :
    ∀ (c : PropCell) (s : Sched),
      SchedInv (c.subs.map WFlags.id) s →
      SchedInv (c.subs.map WFlags.id) (writeBurst (c, s) vs).2 ∧
      (writeBurst (c, s) vs).1.subs = c.subs ∧
      (writeBurst (c, s) vs).1.val = vs.getLastD c.val := by
  induction vs with
  | nil => intro c s h; exact ⟨h, rfl, rfl⟩
  | cons v rest ih =>
    intro c s h
    have hstep : writeBurst (c, s) (v :: rest) = writeBurst (writeProp (c, s) v) rest := rfl
    by_cases hv : v == c.val
    · have hw : writeProp (c, s) v = (c, s) := by
        simp [writeProp, hv]
      have heq : v = c.val := by simpa using hv
      have h2 := ih c s h
      rw [hstep, hw]
      refine ⟨h2.1, h2.2.1, ?_⟩
      rw [h2.2.2, List.getLastD_cons, heq]
    · have hw : writeProp (c, s) v =
          ({ c with val := v }, c.subs.foldl notifyOne s) := by
        simp [writeProp, hv]
      have h2 := ih { c with val := v } (c.subs.foldl notifyOne s)
        (notifyFold_inv c.subs (c.subs.map WFlags.id) s
          (fun w hw => List.mem_map_of_mem WFlags.id hw) h)
      rw [hstep, hw]
      exact ⟨h2.1, h2.2.1, by rw [h2.2.2, List.getLastD_cons]⟩

theorem flushLoop_noeffects (pending : List Nat) :
    ∀ (fuel : Nat) (s : FlushSt), s.pending = pending → pending.length ≤ fuel →
      (flushLoop (fun _ => []) fuel s).ran = s.ran ++ pending := by
  induction pending with
  | nil =>
    intro fuel s hp _
    obtain ⟨ran, pend, has, circ, warned, broke⟩ := s
    simp only at hp
    subst hp
    cases fuel with
    | zero => simp [flushLoop]
    | succ fuel => simp [flushLoop]
  | cons cur rest ih =>
    intro fuel s hp hlen
    obtain ⟨ran, pend, has, circ, warned, broke⟩ := s
    simp only at hp
    subst hp
    cases fuel with
    | zero => exact absurd hlen (by simp)
    | succ fuel =>
      have hrun : runEnqueues (upd has cur false) rest ((fun _ => []) cur) =
          (upd has cur false, rest) := rfl
      have hre : (upd has cur false) cur = false := by simp
      show (flushLoop (fun _ => []) (fuel + 1)
        ⟨ran, cur :: rest, has, circ, warned, broke⟩).ran = ran ++ cur :: rest
      rw [flushLoop]
      simp only [hrun, hre, Bool.false_eq_true, if_false]
      rw [ih fuel _ rfl (by simpa using Nat.le_of_succ_le_succ hlen)]
      simp

theorem flushLoop_broke_warned (effects : Nat → List Nat) :
    ∀ (fuel : Nat) (s : FlushSt), s.broke = false →
      (flushLoop effects fuel s).broke = true →
      (flushLoop effects fuel s).warned = true := by
  intro fuel
  induction fuel with
  | zero =>
    intro s h hb
    exact absurd hb (by simp [flushLoop, h])
  | succ fuel ih =>
    intro s h hb
    obtain ⟨ran, pend, has, circ, warned, broke⟩ := s
    simp only at h
    subst h
    match pend with
    | [] => exact absurd hb (by simp [flushLoop])
    | cur :: rest =>
      rw [flushLoop] at hb ⊢
      simp only at hb ⊢
      by_cases hre : (runEnqueues (upd has cur false) rest (effects cur)).1 cur
      · rw [if_pos hre] at hb ⊢
        by_cases hcap : MAX_UPDATE_COUNT < circ cur + 1
        · rw [if_pos hcap]
        · rw [if_neg hcap] at hb ⊢
          exact ih _ rfl hb
      · rw [if_neg hre] at hb ⊢
        exact ih _ rfl hb

theorem length_insSorted (x : Nat) (l : List Nat) :
    (insSorted x l).length = l.length + 1 := by
  induction l with
  | nil => rfl
  | cons y ys ih =>
    by_cases h : x ≤ y
    · rw [insSorted, if_pos h]
      rfl
    · rw [insSorted, if_neg h]
      simp [ih]

theorem length_sortById (l : List Nat) : (sortById l).length = l.length := by
  induction l with
  | nil => rfl
  | cons a rest ih =>
    show (insSorted a (sortById rest)).length = rest.length + 1
    rw [length_insSorted, ih]

theorem count_updateCall (subs : List Nat) (hdup : subs.Nodup) (wid : Nat) :
    (subs.map NotifyEv.updateCall).count (.updateCall wid) =
      if wid ∈ subs then 1 else 0 := by
  induction subs with
  | nil => simp
  | cons a l ih =>
    rcases List.nodup_cons.mp hdup with ⟨ha, hl⟩
    rcases Decidable.em (wid = a) with h | h
    · subst h
      simp [List.count_cons, ih hl, ha]
    · simp [List.count_cons, ih hl, Ne.symm h, h, NotifyEv.updateCall.injEq]

theorem addDep_fold_spec (reads : List Nat) :
    ∀ (w : WTrack) (subs : Subs),
      w.newDeps = w.newDepIds →
      w.newDepIds.Nodup →
      (∀ d, (subs d).count w.id = if d ∈ w.depIds ∨ d ∈ w.newDepIds then 1 else 0) →
      (reads.foldl addDep (w, subs)).1.id = w.id ∧
      (reads.foldl addDep (w, subs)).1.deps = w.deps ∧
      (reads.foldl addDep (w, subs)).1.depIds = w.depIds ∧
      (reads.foldl addDep (w, subs)).1.newDeps = (reads.foldl addDep (w, subs)).1.newDepIds ∧
      (reads.foldl addDep (w, subs)).1.newDepIds.Nodup ∧
      (∀ d, d ∈ (reads.foldl addDep (w, subs)).1.newDepIds ↔
        d ∈ w.newDepIds ∨ d ∈ reads) ∧
      (∀ d, ((reads.foldl addDep (w, subs)).2 d).count w.id =
        if d ∈ w.depIds ∨ d ∈ (reads.foldl addDep (w, subs)).1.newDepIds then 1 else 0) ∧
      (∀ x d, x ≠ w.id →
        ((reads.foldl addDep (w, subs)).2 d).count x = (subs d).count x) := by
  induction reads with
  | nil =>
    intro w subs hnd hdup hcount
    refine ⟨rfl, rfl, rfl, hnd, hdup, ?_, hcount, ?_⟩
    · intro d; simp
    · intro x d _; rfl
  | cons r rest ih =>
    intro w subs hnd hdup hcount
    by_cases hrn : r ∈ w.newDepIds
    · have hstep : addDep (w, subs) r = (w, subs) := by
        simp [addDep, hrn]
      obtain ⟨ha1, ha2, ha3, ha4, ha5, ha6, ha7, ha8⟩ := ih w subs hnd hdup hcount
      simp only [List.foldl_cons, hstep]
      refine ⟨ha1, ha2, ha3, ha4, ha5, ?_, ha7, ha8⟩
      intro d
      rw [ha6 d]
      constructor
      · rintro (hd | hd)
        · exact Or.inl hd
        · exact Or.inr (List.mem_cons_of_mem r hd)
      · rintro (hd | hd)
        · exact Or.inl hd
        · rcases List.mem_cons.mp hd with rfl | hd
          · exact Or.inl hrn
          · exact Or.inr hd
    · -- the dep is new this run
      have hnd1 : (w.newDeps ++ [r]) = (w.newDepIds ++ [r]) := by rw [hnd]
      have hdup1 : (w.newDepIds ++ [r]).Nodup := by
        simp [List.nodup_append, hdup, hrn]
      have hmem1 : ∀ d, (d ∈ w.newDepIds ++ [r]) ↔ (d ∈ w.newDepIds ∨ d = r) := by
        intro d; simp [List.mem_append]
      by_cases hrd : r ∈ w.depIds
      · have hstep : addDep (w, subs) r =
            ({ w with newDepIds := w.newDepIds ++ [r], newDeps := w.newDeps ++ [r] },
              subs) := by
          simp [addDep, hrn, hrd]
        have hcount1 : ∀ d, (subs d).count w.id =
            if d ∈ w.depIds ∨ d ∈ w.newDepIds ++ [r] then 1 else 0 := by
          intro d
          rw [hcount d]
          refine if_congr ?_ rfl rfl
          rw [hmem1 d]
          constructor
          · rintro (hd | hd)
            · exact Or.inl hd
            · exact Or.inr (Or.inl hd)
          · rintro (hd | hd | rfl)
            · exact Or.inl hd
            · exact Or.inr hd
            · exact Or.inl hrd
        obtain ⟨ha1, ha2, ha3, ha4, ha5, ha6, ha7, ha8⟩ :=
          ih { w with newDepIds := w.newDepIds ++ [r], newDeps := w.newDeps ++ [r] }
            subs hnd1 hdup1 hcount1
        simp only [List.foldl_cons, hstep]
        refine ⟨ha1, ha2, ha3, ha4, ha5, ?_, ha7, ha8⟩
        intro d
        rw [ha6 d, hmem1 d]
        constructor
        · rintro ((hd | rfl) | hd)
          · exact Or.inl hd
          · exact Or.inr (by simp)
          · exact Or.inr (List.mem_cons_of_mem r hd)
        · rintro (hd | hd)
          · exact Or.inl (Or.inl hd)
          · rcases List.mem_cons.mp hd with rfl | hd
            · exact Or.inl (Or.inr rfl)
            · exact Or.inr hd
      · -- newly subscribed: dep.addSub(this)
        have hstep : addDep (w, subs) r =
            ({ w with newDepIds := w.newDepIds ++ [r], newDeps := w.newDeps ++ [r] },
              addSub subs r w.id) := by
          simp [addDep, hrn, hrd]
        have hcount1 : ∀ d, ((addSub subs r w.id) d).count w.id =
            if d ∈ w.depIds ∨ d ∈ w.newDepIds ++ [r] then 1 else 0 := by
          intro d
          by_cases hd : d = r
          · subst hd
            have h0 : (subs d).count w.id = 0 := by
              rw [hcount d]
              simp [hrd, hrn]
            simp [addSub, List.count_append, h0, hmem1 d]
          · rw [addSub, upd_ne _ _ _ _ hd, hcount d]
            refine if_congr ?_ rfl rfl
            rw [hmem1 d]
            constructor
            · rintro (h1 | h1)
              · exact Or.inl h1
              · exact Or.inr (Or.inl h1)
            · rintro (h1 | h1 | rfl)
              · exact Or.inl h1
              · exact Or.inr h1
              · exact absurd rfl hd
        obtain ⟨ha1, ha2, ha3, ha4, ha5, ha6, ha7, ha8⟩ :=
          ih { w with newDepIds := w.newDepIds ++ [r], newDeps := w.newDeps ++ [r] }
            (addSub subs r w.id) hnd1 hdup1 hcount1
        simp only [List.foldl_cons, hstep]
        refine ⟨ha1, ha2, ha3, ha4, ha5, ?_, ha7, ?_⟩
        · intro d
          rw [ha6 d, hmem1 d]
          constructor
          · rintro ((hd | rfl) | hd)
            · exact Or.inl hd
            · exact Or.inr (by simp)
            · exact Or.inr (List.mem_cons_of_mem r hd)
          · rintro (hd | hd)
            · exact Or.inl (Or.inl hd)
            · rcases List.mem_cons.mp hd with rfl | hd
              · exact Or.inl (Or.inr rfl)
              · exact Or.inr hd
        · intro x d hx
          rw [ha8 x d hx]
          by_cases hd : d = r
          · subst hd
            simp [addSub, List.count_append, List.count_singleton, hx]
          · rw [addSub, upd_ne _ _ _ _ hd]

theorem removeStale_nil (newIds : List Nat) (wid : Nat) (subs : Subs) :
    removeStale newIds wid subs [] = subs := rfl

theorem removeStale_cons (newIds : List Nat) (wid : Nat) (subs : Subs)
    (a : Nat) (rest : List Nat) :
    removeStale newIds wid subs (a :: rest) =
      removeStale newIds wid (staleStep newIds wid subs a) rest := rfl

theorem removeStale_spec (deps : List Nat) :
    ∀ (subs : Subs) (newIds : List Nat) (wid : Nat),
      deps.Nodup →
      (∀ d, (subs d).count wid = if d ∈ newIds ∨ d ∈ deps then 1 else 0) →
      (∀ d, ((removeStale newIds wid subs deps) d).count wid =
        if d ∈ newIds then 1 else 0) ∧
      (∀ x d, x ≠ wid →
        ((removeStale newIds wid subs deps) d).count x = (subs d).count x) := by
  induction deps with
  | nil =>
    intro subs newIds wid _ hcount
    constructor
    · intro d
      rw [removeStale_nil, hcount d]
      simp
    · intro x d _; rfl
  | cons a rest ih =>
    intro subs newIds wid hdup hcount
    rcases List.nodup_cons.mp hdup with ⟨har, hrest⟩
    by_cases ha : a ∈ newIds
    · have hstep : staleStep newIds wid subs a = subs := by
        simp [staleStep, ha]
      have hcount1 : ∀ d, (subs d).count wid = if d ∈ newIds ∨ d ∈ rest then 1 else 0 := by
        intro d
        rw [hcount d]
        refine if_congr ?_ rfl rfl
        constructor
        · rintro (hd | hd)
          · exact Or.inl hd
          · rcases List.mem_cons.mp hd with rfl | hd
            · exact Or.inl ha
            · exact Or.inr hd
        · rintro (hd | hd)
          · exact Or.inl hd
          · exact Or.inr (List.mem_cons_of_mem a hd)
      have h := ih subs newIds wid hrest hcount1
      rw [removeStale_cons, hstep]
      exact h
    · have hstep : staleStep newIds wid subs a = removeSub subs a wid := by
        simp [staleStep, ha]
      have hcount1 : ∀ d, ((removeSub subs a wid) d).count wid =
          if d ∈ newIds ∨ d ∈ rest then 1 else 0 := by
        intro d
        by_cases hd : d = a
        · subst hd
          have h1 : (subs d).count wid = 1 := by
            rw [hcount d]
            simp
          rw [removeSub, upd_same, List.count_erase_self, h1]
          simp [ha, har]
        · rw [removeSub, upd_ne _ _ _ _ hd, hcount d]
          refine if_congr ?_ rfl rfl
          constructor
          · rintro (h1 | h1)
            · exact Or.inl h1
            · rcases List.mem_cons.mp h1 with rfl | h1
              · exact absurd rfl hd
              · exact Or.inr h1
          · rintro (h1 | h1)
            · exact Or.inl h1
            · exact Or.inr (List.mem_cons_of_mem a h1)
      have h := ih (removeSub subs a wid) newIds wid hrest hcount1
      rw [removeStale_cons, hstep]
      constructor
      · exact h.1
      · intro x d hx
        rw [h.2 x d hx]
        by_cases hd : d = a
        · subst hd
          rw [removeSub, upd_same, List.count_erase_of_ne hx]
        · rw [removeSub, upd_ne _ _ _ _ hd]

/-! ## Claim theorems -/

/-- C1: after a completed `run()` / `evaluate()` of the getter (a
sequence `reads` of dep reads followed by the `finally` cleanup), the
watcher appears exactly once in the subscriber list of every dep read
during the run and zero times in every other subscriber list — stale
subscriptions from the previous run are removed and no duplicates are
created.  The hypotheses are the steady-state invariant re-established by
the conclusion: the new-run sets are empty, `depIds` mirrors `deps`, and
the watcher sits exactly once in the lists of its previous deps.  Other
watchers' subscriptions are untouched. -/
theorem watcher_retracks_exactly (w : WTrack) (subs : Subs) (reads : List Nat)
    (h1 : w.newDeps = []) (h2 : w.newDepIds = [])
    (h3 : w.depIds = w.deps) (h4 : w.deps.Nodup)
    (h5 : ∀ d, (subs d).count w.id = if d ∈ w.depIds then 1 else 0) :
    (∀ d, (((watcherRunDeps w subs reads).2) d).count w.id =
      if d ∈ reads then 1 else 0) ∧
    (∀ d, d ∈ (watcherRunDeps w subs reads).1.deps ↔ d ∈ reads) ∧
    (watcherRunDeps w subs reads).1.deps.Nodup ∧
    (watcherRunDeps w subs reads).1.depIds = (watcherRunDeps w subs reads).1.deps ∧
    (watcherRunDeps w subs reads).1.newDeps = [] ∧
    (watcherRunDeps w subs reads).1.newDepIds = [] ∧
    (∀ x d, x ≠ w.id →
      (((watcherRunDeps w subs reads).2) d).count x = (subs d).count x) := by
  have hcount0 : ∀ d, (subs d).count w.id =
      if d ∈ w.depIds ∨ d ∈ w.newDepIds then 1 else 0 := by
    intro d
    rw [h5 d]
    refine if_congr ?_ rfl rfl
    rw [h2]
    simp
  obtain ⟨g1, g2, g3, g4, g5, g6, g7, g8⟩ :=
    addDep_fold_spec reads w subs (by rw [h1, h2]) (by rw [h2]; exact List.nodup_nil)
      hcount0
  have hc2 : ∀ d, ((reads.foldl addDep (w, subs)).2 d).count w.id =
      if d ∈ (reads.foldl addDep (w, subs)).1.newDepIds ∨
        d ∈ (reads.foldl addDep (w, subs)).1.deps then 1 else 0 := by
    intro d
    rw [g7 d]
    refine if_congr ?_ rfl rfl
    rw [g2, ← h3]
    exact Or.comm
  have hnodup : (reads.foldl addDep (w, subs)).1.deps.Nodup := by
    rw [g2]; exact h4
  obtain ⟨r1, r2⟩ :=
    removeStale_spec (reads.foldl addDep (w, subs)).1.deps
      (reads.foldl addDep (w, subs)).2
      (reads.foldl addDep (w, subs)).1.newDepIds w.id hnodup hc2
  have hmem : ∀ d, d ∈ (reads.foldl addDep (w, subs)).1.newDepIds ↔ d ∈ reads := by
    intro d
    rw [g6 d, h2]
    simp
  have hrun : watcherRunDeps w subs reads =
      ({ (reads.foldl addDep (w, subs)).1 with
          depIds := (reads.foldl addDep (w, subs)).1.newDepIds, newDepIds := [],
          deps := (reads.foldl addDep (w, subs)).1.newDeps, newDeps := [] },
        removeStale (reads.foldl addDep (w, subs)).1.newDepIds w.id
          (reads.foldl addDep (w, subs)).2
          (reads.foldl addDep (w, subs)).1.deps) := by
    simp only [watcherRunDeps, cleanupDeps, g1]
  refine ⟨?_, ?_, ?_, ?_, ?_, ?_, ?_⟩
  · intro d
    rw [hrun]
    rw [r1 d]
    exact if_congr (hmem d) rfl rfl
  · intro d
    rw [hrun]
    show d ∈ (reads.foldl addDep (w, subs)).1.newDeps ↔ d ∈ reads
    rw [g4]
    exact hmem d
  · rw [hrun]
    show (reads.foldl addDep (w, subs)).1.newDeps.Nodup
    rw [g4]
    exact g5
  · rw [hrun]
    exact g4.symm
  · rw [hrun]
  · rw [hrun]
  · intro x d hx
    rw [hrun]
    exact (r2 x d hx).trans (g8 x d hx)

/-- C1 witness: a fresh watcher (no previous deps) reading deps 0, 1 and
0 again ends up subscribed exactly once to deps 0 and 1 and nowhere
else. -/
theorem watcher_retracks_exactly_witness :
    (∀ d, (((watcherRunDeps ⟨7, [], [], [], []⟩ (fun _ => []) [0, 1, 0]).2) d).count 7 =
      if d ∈ [0, 1, 0] then 1 else 0) ∧
    (∀ d, d ∈ (watcherRunDeps ⟨7, [], [], [], []⟩ (fun _ => []) [0, 1, 0]).1.deps ↔
      d ∈ [0, 1, 0]) := by
  have h := watcher_retracks_exactly ⟨7, [], [], [], []⟩ (fun _ => []) [0, 1, 0]
    rfl rfl rfl List.nodup_nil (by intro d; simp)
  exact ⟨h.1, h.2.1⟩

/-- C6 counterexample: the claim says a multiple-roots render result
retains the previously rendered tree, but `Vue.prototype.render` replaces
it with a fresh empty placeholder node (`createEmptyVNode`); the previous
tree is retained only when the render function throws. -/
theorem renderStep_multiroot_not_retained :
    renderStep (some (.real 3)) .multipleRoots = (.emptyV, true) ∧
      VNodeV.emptyV ≠ VNodeV.real 3 := by
  constructor
  · rfl
  · decide

/-- C6 (amended): a thrown render error is reported and the previous tree
is retained (empty placeholder when there is none); a multiple-roots
(array) return is reported with a diagnostic and a non-array non-VNode
return is not reported, and in both of those cases the result is a fresh
empty placeholder node, not the previous tree. -/
theorem renderStep_malformed_spec (prev : Option VNodeV) (v : VNodeV) (n : Nat) :
    renderStep prev .multipleRoots = (.emptyV, true) ∧
      renderStep prev .nonVNode = (.emptyV, false) ∧
      renderStep (some v) .throws = (v, true) ∧
      renderStep none .throws = (.emptyV, true) ∧
      renderStep prev (.vnode n) = (.real n, false) := by
  refine ⟨rfl, rfl, rfl, rfl, rfl⟩

/-- C9 counterexample: from the state reached by an active watcher 5
followed by the no-argument `pushTarget()` used around lifecycle hooks
(target null, stack `[5]`), entering and leaving `Watcher.get` for
watcher 7 does not restore the null target: `pushTarget` refuses to save
a null target, so the exit pops the stale `5` instead. -/
theorem watcherGet_target_not_restored :
    (pushTarget none (pushTarget (some 5) ⟨none, []⟩)).target = none ∧
      (watcherGetTargets 7 false
        (pushTarget none (pushTarget (some 5) ⟨none, []⟩))).target = some 5 ∧
      some 5 ≠ (none : Option Nat) := by
  refine ⟨rfl, rfl, by decide⟩

/-- C9 (amended): `Watcher.get` pushes the watcher on entry and pops in
`finally` on every exit path (thrown getter included, hence the same
state transition for both values of `threw`); the previous target and
stack are restored in every state whose target is non-null or whose stack
is empty.  Because `pushTarget` does not save a null target, the states
with a null target and a non-empty stack (reachable through the
no-argument `pushTarget` used around lifecycle hooks) are the exact
exception. -/
theorem watcherGet_targets_balanced (w : Nat) (threw : Bool) (s : TargetSt)
    (h : s.target ≠ none ∨ s.stack = []) :
    (watcherGetTargets w threw s).target = s.target ∧
      (watcherGetTargets w threw s).stack = s.stack := by
  rcases hs : s.target with _ | t
  · rcases h with h | h
    · exact absurd hs h
    · cases threw <;>
        simp [watcherGetTargets, pushTarget, popTarget, hs, h]
  · cases threw <;>
      simp [watcherGetTargets, pushTarget, popTarget, hs]

/-- C9 witness: a concrete balanced evaluation with a thrown getter. -/
theorem watcherGet_targets_balanced_witness :
    (watcherGetTargets 9 true ⟨some 3, [1]⟩).target = some 3 ∧
      (watcherGetTargets 9 true ⟨some 3, [1]⟩).stack = [1] :=
  watcherGet_targets_balanced 9 true ⟨some 3, [1]⟩ (Or.inl (by decide))

/-- C8: a lazy (computed) watcher starts dirty with its getter not yet
run; a dependency notification (`Watcher.update`) only sets the dirty
flag, neither scheduling nor recomputing; and reading the computed value
twice with no intervening dependency write runs the underlying getter
exactly once (on the first read, which clears the flag). -/
theorem lazy_watcher_reads_once (g : Int) (ht : Bool) (w : LazyW)
    (hw : w.lazy = true) :
    (watcherUpdate w).1 = { w with dirty := true } ∧
      (watcherUpdate w).2 = .nothing ∧
      (watcherUpdate w).1.getterCalls = w.getterCalls ∧
      (mkWatcherW g true false).dirty = true ∧
      (mkWatcherW g true false).getterCalls = 0 ∧
      (computedRead g ht (mkWatcherW g true false)).1 = g ∧
      (computedRead g ht
        (computedRead g ht (mkWatcherW g true false)).2.1).1 = g ∧
      (computedRead g ht
        (computedRead g ht (mkWatcherW g true false)).2.1).2.1.getterCalls = 1 := by
  refine ⟨?_, ?_, ?_, ?_, ?_, ?_, ?_, ?_⟩ <;>
    simp [watcherUpdate, hw, mkWatcherW, computedRead, watcherEvaluate]

/-- C8 witness: the lazy-watcher facts at a concrete getter value. -/
theorem lazy_watcher_reads_once_witness :
    (watcherUpdate (mkWatcherW 42 true false)).2 = .nothing ∧
      (computedRead 42 false
        (computedRead 42 false (mkWatcherW 42 true false)).2.1).2.1.getterCalls = 1 := by
  have h := lazy_watcher_reads_once 42 false (mkWatcherW 42 true false) (by decide)
  exact ⟨h.2.1, h.2.2.2.2.2.2.2⟩

/-- C7: `observe` is idempotent: when the value already carries an
Observer on its hidden marker, no new Observer is created (`nextOb` and
every object record are unchanged) and the existing Observer is
returned. -/
theorem observe_idempotent (so : Bool) (h : Heap) (p ob : Nat) (asRoot : Bool)
    (hv : (h.objs p).isVNode = false) (hob : (h.objs p).hasOb = some ob) :
    (observeM so h (.objv p) asRoot).2 = some ob ∧
      (observeM so h (.objv p) asRoot).1.nextOb = h.nextOb ∧
      (∀ q, (observeM so h (.objv p) asRoot).1.objs q = h.objs q) := by
  cases asRoot <;> simp [observeM, hv, hob]

/-- C7 witness: re-observing a concrete already-observed object. -/
theorem observe_idempotent_witness :
    (observeM true
        ⟨fun _ => ⟨some 0, true, false, true, false, false, fun _ => none⟩,
          fun _ => 0, 1⟩
        (.objv 4) false).2 = some 0 ∧
      (observeM true
        ⟨fun _ => ⟨some 0, true, false, true, false, false, fun _ => none⟩,
          fun _ => 0, 1⟩
        (.objv 4) false).1.nextOb = 1 := by
  have h := observe_idempotent true
    ⟨fun _ => ⟨some 0, true, false, true, false, false, fun _ => none⟩, fun _ => 0, 1⟩
    4 0 false rfl rfl
  exact ⟨h.1, h.2.1⟩

/-- C10: declaring a new property via `set(target, key, val)` on a Vue
instance or on a root data object (positive `vmCount`) defines no
reactive property, dispatches no shape-cell notification, leaves the
target unchanged and returns `val` (only the dev warning fires); and on a
plain unobserved object it assigns the key with no notification of any
kind.  The hypotheses restrict to the declare-new-property operation: the
key is not an existing own key and not a valid index of an array
target. -/
theorem vue_set_guard_and_plain (h : Heap) (p : Nat) (key : String) (v : JSv)
    (hidx : ((h.objs p).isArr && validIdx key) = false)
    (hnew : (h.objs p).vals key = none) :
    (((h.objs p).isVue = true ∨
        ∃ ob, (h.objs p).hasOb = some ob ∧ 0 < h.obVmCount ob) →
      vueSet h p key v = (h, v, [.warnGuard])) ∧
    ((h.objs p).isVue = false → (h.objs p).hasOb = none →
      vueSet h p key v = (setVal h p key v, v, [])) := by
  constructor
  · intro hguard
    rcases hguard with hvue | ⟨ob, hob, hcnt⟩
    · simp [vueSet, hidx, hnew, hvue]
    · simp [vueSet, hidx, hnew, hob, hcnt]
  · intro hvue hob
    simp [vueSet, hidx, hnew, hvue, hob]

/-- C10 witness: `set` on a concrete root data object (vmCount 1) is a
warning-only no-op returning the value. -/
theorem vue_set_guard_and_plain_witness :
    vueSet
        ⟨fun _ => ⟨some 0, true, false, true, false, false, fun _ => none⟩,
          fun _ => 1, 1⟩
        2 "k" (.num 7) =
      (⟨fun _ => ⟨some 0, true, false, true, false, false, fun _ => none⟩,
          fun _ => 1, 1⟩, .num 7, [.warnGuard]) :=
  (vue_set_guard_and_plain
      ⟨fun _ => ⟨some 0, true, false, true, false, false, fun _ => none⟩, fun _ => 1, 1⟩
      2 "k" (.num 7) rfl rfl).1
    (Or.inr ⟨0, rfl, Nat.one_pos⟩)

/-- C5: a tracked write that is strictly equal to the current value, or
where both values are NaN, changes nothing and notifies nobody;
otherwise the closure value is replaced, the new value is re-observed
(`observe(newVal)` becomes the new `childOb`), and the dep notifies every
current subscriber exactly once via one `update()` call each, with no
inline `run()` call in the notification. -/
theorem reactive_setter_write (so : Bool) (h : Heap) (c : CellState)
    (subs : List Nat) (nv : JSv) (hdup : subs.Nodup) :
    ((strictEq nv c.val || (isNaNv nv && isNaNv c.val)) = true →
      reactiveSetter so h c subs nv = (h, c, [])) ∧
    ((strictEq nv c.val || (isNaNv nv && isNaNv c.val)) = false →
      (reactiveSetter so h c subs nv).2.1.val = nv ∧
      (reactiveSetter so h c subs nv).2.1.childOb = (observeM so h nv false).2 ∧
      (reactiveSetter so h c subs nv).1 = (observeM so h nv false).1 ∧
      (reactiveSetter so h c subs nv).2.2 = depNotify subs ∧
      (∀ wid, ((reactiveSetter so h c subs nv).2.2).count (.updateCall wid) =
        if wid ∈ subs then 1 else 0) ∧
      (∀ wid, NotifyEv.runCall wid ∉ (reactiveSetter so h c subs nv).2.2)) := by
  constructor
  · intro hskip
    simp [reactiveSetter, hskip]
  · intro hch
    refine ⟨?_, ?_, ?_, ?_, ?_, ?_⟩ <;>
      simp [reactiveSetter, hch, depNotify, count_updateCall subs hdup]

/-- C5 witness: a changing write to a cell with two distinct subscribers
notifies each exactly once and performs no inline run. -/
theorem reactive_setter_write_witness :
    (reactiveSetter true ⟨fun _ => ⟨none, true, false, true, false, false,
        fun _ => none⟩, fun _ => 0, 0⟩
      ⟨.num 0, none⟩ [1, 2] (.num 5)).2.1.val = .num 5 ∧
    (∀ wid, ((reactiveSetter true ⟨fun _ => ⟨none, true, false, true, false, false,
        fun _ => none⟩, fun _ => 0, 0⟩
      ⟨.num 0, none⟩ [1, 2] (.num 5)).2.2).count (.updateCall wid) =
        if wid ∈ [1, 2] then 1 else 0) := by
  have h := (reactive_setter_write true
    ⟨fun _ => ⟨none, true, false, true, false, false, fun _ => none⟩, fun _ => 0, 0⟩
    ⟨.num 0, none⟩ [1, 2] (.num 5) (by decide)).2 (by decide)
  exact ⟨h.1, h.2.2.2.2.1⟩

/-- C2: a synchronous burst of writes to one tracked property within one
tick enqueues each non-lazy non-sync subscriber at most once (the `has`
map dedupes by id), issues at most one flush request (`waiting` guards
`nextTick(flushSchedulerQueue)`), leaves the property holding the last
value written, and the resulting single flush runs each enqueued watcher
at most once; since the subscribers of this burst perform no further
writes, the value they read when they run is the final stored value. -/
theorem writes_coalesce (subs : List WFlags) (vs : List Int) (v0 : Int) :
    (∀ x, (writeBurst (⟨v0, subs⟩, resetSchedulerState) vs).2.queue.count x ≤ 1) ∧
    (∀ x ∈ (writeBurst (⟨v0, subs⟩, resetSchedulerState) vs).2.queue,
      x ∈ subs.map WFlags.id) ∧
    (writeBurst (⟨v0, subs⟩, resetSchedulerState) vs).2.flushRequests ≤ 1 ∧
    (writeBurst (⟨v0, subs⟩, resetSchedulerState) vs).1.val = vs.getLastD v0 ∧
    (∀ fuel x,
      (writeBurst (⟨v0, subs⟩, resetSchedulerState) vs).2.queue.length ≤ fuel →
      ((flushSchedulerQueue (fun _ => []) fuel
          (writeBurst (⟨v0, subs⟩, resetSchedulerState) vs).2.queue
          (writeBurst (⟨v0, subs⟩, resetSchedulerState) vs).2.has).ran).count x ≤ 1) := by
  have hinv0 : SchedInv (subs.map WFlags.id) resetSchedulerState := by
    refine ⟨?_, ?_, ?_⟩ <;> simp [resetSchedulerState]
  obtain ⟨⟨hq, hqm, hreq⟩, hsubs, hval⟩ :=
    writeBurst_inv vs ⟨v0, subs⟩ resetSchedulerState hinv0
  refine ⟨?_, hqm, ?_, hval, ?_⟩
  · intro x
    rw [hq x]
    split <;> omega
  · rw [hreq]
    split <;> omega
  · intro fuel x hfuel
    have hr : (flushSchedulerQueue (fun _ => []) fuel
        (writeBurst (⟨v0, subs⟩, resetSchedulerState) vs).2.queue
        (writeBurst (⟨v0, subs⟩, resetSchedulerState) vs).2.has).ran =
        sortById (writeBurst (⟨v0, subs⟩, resetSchedulerState) vs).2.queue := by
      rw [flushSchedulerQueue]
      rw [flushLoop_noeffects _ fuel _ rfl
        (by rw [length_sortById]; exact hfuel)]
      simp
    rw [hr, count_sortById, hq x]
    split <;> omega

/-- C2 witness: writes 1 then 2 with two plain subscribers enqueue each
subscriber once, request one flush, store 2, and the flush runs each at
most once. -/
theorem writes_coalesce_witness :
    (writeBurst (⟨0, [⟨3, false, false⟩, ⟨4, false, false⟩]⟩,
        resetSchedulerState) [1, 2]).1.val = [1, 2].getLastD 0 ∧
    (writeBurst (⟨0, [⟨3, false, false⟩, ⟨4, false, false⟩]⟩,
        resetSchedulerState) [1, 2]).2.flushRequests ≤ 1 ∧
    (∀ x, (writeBurst (⟨0, [⟨3, false, false⟩, ⟨4, false, false⟩]⟩,
        resetSchedulerState) [1, 2]).2.queue.count x ≤ 1) := by
  have h := writes_coalesce [⟨3, false, false⟩, ⟨4, false, false⟩] [1, 2] 0
  exact ⟨h.2.2.2.1, h.2.2.1, h.1⟩

/-- C3 counterexample: the claim says every flush executes watchers in
non-decreasing id order, including ones spliced in mid-flush; but a
watcher enqueued during the flush whose id is not greater than the one
currently being processed is spliced right after the current position and
runs next immediately (the source comments this), breaking monotonicity.
Here watcher 5 is flushed and its run enqueues watcher 1. -/
theorem flush_order_counterexample :
    (flushSchedulerQueue (fun w => if w = 5 then [1] else []) 10 [5]
      (fun w => w == 5)).ran = [5, 1] ∧
    ¬ ([5, 1].Pairwise (fun a b => a ≤ b)) := by
  constructor
  · rfl
  · decide

/-- C3 (amended): within one flush the executed order is non-decreasing
in creation id, provided every watcher enqueued while the flush is
running has id at least the id of the watcher currently being processed
(mid-flush enqueues are spliced into the sorted remainder by id); an
enqueue with a smaller id runs next immediately and can break the order. -/
theorem flush_order_nondecreasing (effects : Nat → List Nat)
    (Hm : ∀ w e, e ∈ effects w → w ≤ e) (fuel : Nat) (q : List Nat)
    (has : Nat → Bool) :
    ((flushSchedulerQueue effects fuel q has).ran).Pairwise (fun a b => a ≤ b) := by
  refine flushLoop_sorted effects Hm fuel _ List.Pairwise.nil (sortById_sorted q) ?_
  intro a ha
  exact absurd ha (List.not_mem_nil a)

/-- C3 witness: a flush of queue `[2, 1]` in which watcher 1 enqueues
watcher 3 mid-flush executes in sorted order. -/
theorem flush_order_nondecreasing_witness :
    ((flushSchedulerQueue (fun w => if w = 1 then [3] else []) 10 [2, 1]
      (fun w => w == 1 || w == 2)).ran).Pairwise (fun a b => a ≤ b) :=
  flush_order_nondecreasing (fun w => if w = 1 then [3] else [])
    (by
      intro w e he
      by_cases hw : w = 1
      · subst hw
        simp at he
        omega
      · simp [hw] at he)
    10 [2, 1] (fun w => w == 1 || w == 2)

set_option maxRecDepth 40000 in
/-- C4 counterexample: the claim says that after the cycle ceiling trips,
the flush continues to run the remaining pending watchers; but the guard
executes `break`, abandoning the whole loop: with cyclic watcher 1 and
pending watcher 2 queued together, the diagnostic fires and watcher 2 is
never run even though it is still pending. -/
theorem flush_cycle_counterexample :
    (flushSchedulerQueue cyclicEff 150 [1, 2] (fun w => w == 1 || w == 2)).warned =
      true ∧
    (flushSchedulerQueue cyclicEff 150 [1, 2]
      (fun w => w == 1 || w == 2)).ran.count 2 = 0 ∧
    2 ∈ (flushSchedulerQueue cyclicEff 150 [1, 2]
      (fun w => w == 1 || w == 2)).pending := by
  refine ⟨by decide, by decide, by decide⟩

set_option maxRecDepth 40000 in
/-- C4 (amended): when a watcher is re-enqueued more than
`MAX_UPDATE_COUNT` times within one flush (dev build), the diagnostic is
reported and the loop breaks immediately: further runs of the offending
watcher and of every remaining pending watcher are skipped
(`resetSchedulerState` then clears the queue so later flushes start
fresh).  Whenever the loop broke, it warned; concretely, cyclic watcher 1
runs exactly `MAX_UPDATE_COUNT + 1` times and pending watcher 2 never
runs. -/
theorem flush_cycle_guard (effects : Nat → List Nat) (fuel : Nat)
    (q : List Nat) (has : Nat → Bool)
    (hb : (flushSchedulerQueue effects fuel q has).broke = true) :
    (flushSchedulerQueue effects fuel q has).warned = true ∧
    (flushSchedulerQueue cyclicEff 150 [1, 2]
      (fun w => w == 1 || w == 2)).ran.count 1 = MAX_UPDATE_COUNT + 1 ∧
    (flushSchedulerQueue cyclicEff 150 [1, 2]
      (fun w => w == 1 || w == 2)).ran.count 2 = 0 ∧
    (flushSchedulerQueue cyclicEff 150 [1, 2]
      (fun w => w == 1 || w == 2)).broke = true ∧
    resetSchedulerState.queue = [] ∧ resetSchedulerState.waiting = false := by
  refine ⟨flushLoop_broke_warned effects fuel _ rfl hb, by decide, by decide,
    by decide, rfl, rfl⟩

set_option maxRecDepth 40000 in
/-- C4 witness: the guard theorem applied to the concrete cyclic flush,
whose loop does break. -/
theorem flush_cycle_guard_witness :
    (flushSchedulerQueue cyclicEff 150 [1, 2]
      (fun w => w == 1 || w == 2)).warned = true :=
  (flush_cycle_guard cyclicEff 150 [1, 2] (fun w => w == 1 || w == 2)
    (by decide)).1

end VueCore
